import Mathlib

/-!
# Verification of the ore-cli mining-and-submission loop

Shallow embedding of the mining client's core logic:

* nonce-space partitioning (`nonceIndex`, from `mine.rs`, `Miner::mine`),
* cutoff/deadline arithmetic (`getCutoff`, from `mine.rs`, `Miner::get_cutoff`),
* the mine-instruction wire format (`mineToBytes`, from `mine.rs`, `Mine::to_bytes`),
* bus selection (`findBus`, from `mine.rs`, `Miner::find_bus`),
* the worker hot loop's stop condition (`workerLoop`, from `mine.rs`, `find_hash_par`),
* result aggregation across workers (`joinResults`, from `mine.rs`, `find_hash_par`),
* the shared best-difficulty tracker as an interleaving model (`runOps`,
  from `mine.rs`, `find_hash_par`),
* instruction-list assembly with the optional tip transfer (`assembleFinalIxs`,
  from `send_and_confirm.rs`, `Miner::send_and_confirm`),
* the submission/confirmation state machine (`sendLoop`,
  from `send_and_confirm.rs`, `Miner::send_and_confirm`).

Machine integers are modelled as `Nat`/`Int` with explicit range bounds where
overflow or casts matter.  Remote effects (RPC reads, randomness, time) are
modelled as explicit parameters or event scripts.
-/

/-! ## Nonce-space partitioning (`mine.rs`, `Miner::mine`, lines 66-70)

`let nonce = u64::MAX.saturating_div(args.cores).saturating_mul(n);`
for `n in 0..args.cores`.  `u64MAX = 2^64 - 1`. -/

def u64MAX : Nat := 2 ^ 64 - 1

/-- Starting nonce offset of worker `i` out of `cores` workers. -/
def nonceIndex (cores i : Nat) : Nat := (u64MAX / cores) * i

/-! ## Cutoff arithmetic (`mine.rs`, `Miner::get_cutoff`, lines 230-237)

`last_hash_at.saturating_add(60).saturating_sub(buffer_time as i64)
  .saturating_sub(clock.unix_timestamp).max(0) as u64` -/

def i64MIN : Int := -(2 ^ 63)
def i64MAX : Int := 2 ^ 63 - 1

/-- Clamp an integer into the signed 64-bit range (Rust saturating result). -/
def satI64 (x : Int) : Int := max i64MIN (min i64MAX x)

/-- Rust `i64::saturating_add`. -/
def satAdd (a b : Int) : Int := satI64 (a + b)

/-- Rust `i64::saturating_sub`. -/
def satSub (a b : Int) : Int := satI64 (a - b)

/-- Rust `u64 as i64`: a wrapping (bit-reinterpreting) cast. -/
def wrapCastU64 (b : Nat) : Int := if b < 2 ^ 63 then (b : Int) else (b : Int) - 2 ^ 64

/-- `Miner::get_cutoff`: seconds left in the round, floored at zero.
`l` is `proof.last_hash_at : i64`, `b` is `buffer_time : u64`,
`now` is `clock.unix_timestamp : i64`. -/
def getCutoff (l : Int) (b : Nat) (now : Int) : Nat :=
  (max 0 (satSub (satSub (satAdd l 60) (wrapCastU64 b)) now)).toNat

/-- Spec-side formula: `max(0, last_hash_at + 60 − buffer_time − now)` evaluated
with saturating signed 64-bit add/sub, `buffer_time` taken at its numeric value. -/
def specCutoffSat (l : Int) (b : Nat) (now : Int) : Int :=
  max 0 (satSub (satSub (satAdd l 60) (b : Int)) now)

/-! ## Mine-instruction wire format (`mine.rs`, `Mine::to_bytes`, lines 280-286)

`[discriminator (8 bytes)] ++ [digest (16 bytes)] ++ [nonce (8 bytes)]`,
the nonce bytes being `best_nonce.to_le_bytes()` (`find_hash_par`, line 216). -/

def discriminatorBytes : List Nat := [170, 66, 140, 123, 15, 20, 224, 194]

/-- Little-endian byte encoding, `k` bytes (Rust `u64::to_le_bytes` at `k = 8`). -/
def toLeBytes : Nat → Nat → List Nat
  | 0, _ => []
  | k + 1, n => n % 256 :: toLeBytes k (n / 256)

/-- Little-endian byte decoding. -/
def fromLeBytes : List Nat → Nat
  | [] => 0
  | b :: bs => b + 256 * fromLeBytes bs

/-- `Mine::to_bytes`: instruction data for a solution. -/
def mineToBytes (digest nonceBytes : List Nat) : List Nat :=
  discriminatorBytes ++ digest ++ nonceBytes

theorem toLeBytes_length (k n : Nat) : (toLeBytes k n).length = k := by
  induction k generalizing n with
  | zero => rfl
  | succ k ih => simp [toLeBytes, ih]

theorem fromLeBytes_toLeBytes (k n : Nat) :
    fromLeBytes (toLeBytes k n) = n % 256 ^ k := by
  induction k generalizing n with
  | zero => simp [toLeBytes, fromLeBytes, Nat.mod_one]
  | succ k ih =>
      simp only [toLeBytes, fromLeBytes, ih]
      rw [pow_succ', Nat.mod_mul]

/-! ## First-strict-max selection fold

Both `find_bus`'s success path and `find_hash_par`'s join loop keep a running
best and replace it only on a strict improvement, so the first element
attaining the maximum wins ties. -/

/-- Left fold keeping the first strict maximum by measure `f`. -/
def keepMax {α : Type} (f : α → Nat) (best : α) (xs : List α) : α :=
  xs.foldl (fun b x => if f b < f x then x else b) best

theorem keepMax_cases {α : Type} (f : α → Nat) (best : α) (xs : List α) :
    (keepMax f best xs = best ∧ ∀ x ∈ xs, f x ≤ f best)
    ∨ (∃ l₁ l₂, xs = l₁ ++ keepMax f best xs :: l₂
        ∧ f best < f (keepMax f best xs)
        ∧ (∀ y ∈ l₁, f y < f (keepMax f best xs))
        ∧ (∀ y ∈ l₂, f y ≤ f (keepMax f best xs))) := by
  induction xs generalizing best with
  | nil => exact Or.inl ⟨rfl, by simp⟩
  | cons x xs ih =>
    by_cases h : f best < f x
    · have hstep : keepMax f best (x :: xs) = keepMax f x xs := by
        simp [keepMax, List.foldl_cons, if_pos h]
      rcases ih x with ⟨heq, hle⟩ | ⟨l₁, l₂, hxs, hlt, h₁, h₂⟩
      · refine Or.inr ⟨[], xs, ?_, ?_, by simp, ?_⟩
        · simp [hstep, heq]
        · rw [hstep, heq]; exact h
        · intro y hy; rw [hstep, heq]; exact hle y hy
      · refine Or.inr ⟨x :: l₁, l₂, ?_, ?_, ?_, ?_⟩
        · rw [hstep]; simpa using congrArg (List.cons x) hxs
        · rw [hstep]; exact lt_trans h hlt
        · intro y hy
          rw [hstep]
          rcases List.mem_cons.mp hy with rfl | hy
          · exact hlt
          · exact h₁ y hy
        · intro y hy; rw [hstep]; exact h₂ y hy
    · have hstep : keepMax f best (x :: xs) = keepMax f best xs := by
        simp [keepMax, List.foldl_cons, if_neg h]
      rcases ih best with ⟨heq, hle⟩ | ⟨l₁, l₂, hxs, hlt, h₁, h₂⟩
      · have hres : keepMax f best (x :: xs) = best := by rw [hstep, heq]
        refine Or.inl ⟨hres, ?_⟩
        intro y hy
        rcases List.mem_cons.mp hy with rfl | hy
        · exact le_of_not_lt h
        · exact hle y hy
      · refine Or.inr ⟨x :: l₁, l₂, ?_, ?_, ?_, ?_⟩
        · rw [hstep]; simpa using congrArg (List.cons x) hxs
        · rw [hstep]; exact hlt
        · intro y hy
          rw [hstep]
          rcases List.mem_cons.mp hy with rfl | hy
          · exact lt_of_le_of_lt (le_of_not_lt h) hlt
          · exact h₁ y hy
        · intro y hy; rw [hstep]; exact h₂ y hy

theorem keepMax_le {α : Type} (f : α → Nat) (best : α) (xs : List α) :
    f best ≤ f (keepMax f best xs) ∧ ∀ x ∈ xs, f x ≤ f (keepMax f best xs) := by
  rcases keepMax_cases f best xs with ⟨heq, hle⟩ | ⟨l₁, l₂, hxs, hlt, h₁, h₂⟩
  · exact ⟨le_of_eq (congrArg f heq.symm), fun x hx => by rw [heq]; exact hle x hx⟩
  · refine ⟨le_of_lt hlt, fun x hx => ?_⟩
    rw [hxs] at hx
    rcases List.mem_append.mp hx with hx | hx
    · exact le_of_lt (h₁ x hx)
    · rcases List.mem_cons.mp hx with rfl | hx
      · exact le_refl _
      · exact h₂ x hx

theorem keepMax_mem {α : Type} (f : α → Nat) (best : α) (xs : List α) :
    keepMax f best xs = best ∨ keepMax f best xs ∈ xs := by
  rcases keepMax_cases f best xs with ⟨heq, _⟩ | ⟨l₁, l₂, hxs, _, _, _⟩
  · exact Or.inl heq
  · set r := keepMax f best xs with hr
    right
    rw [hxs]
    simp

/-! ## Bus selection (`mine.rs`, `Miner::find_bus`, lines 239-260)

The 8 fixed `BUS_ADDRESSES` of the external `ore_api` crate are abstracted to
the tags `0..7` (pairwise distinct, fixed order); `BUS_ADDRESSES[i]` is tag
`i`.  An account that is absent or fails `Bus::try_from_bytes` is `none`. -/

def busAddresses : List Nat := List.range 8

/-- Interface model of `ore_api::state::Bus`: the two fields `find_bus` reads. -/
structure BusAcc where
  id : Nat
  rewards : Nat
deriving DecidableEq

/-- One loop step of `find_bus`'s success path on a deserialized bus: keep the
running `(top_bus_balance, top_bus)`; `none` models the panic of
`BUS_ADDRESSES[bus.id as usize]` on an out-of-range index. -/
def busStepSome : Option (Nat × Nat) → BusAcc → Option (Nat × Nat)
  | none, _ => none
  | some (top, topBus), bus =>
      if top < bus.rewards then
        match busAddresses[bus.id]? with
        | some a => some (bus.rewards, a)
        | none => none
      else some (top, topBus)

/-- One loop step of `find_bus`'s success path: absent or undeserializable
accounts are skipped. -/
def busStep (st : Option (Nat × Nat)) (acc : Option BusAcc) : Option (Nat × Nat) :=
  match acc with
  | none => st
  | some bus => busStepSome st bus

/-- Success path of `Miner::find_bus` (the read returned `Ok`): initial state is
`(0, BUS_ADDRESSES[0])`; result is the final `top_bus` (`none` = panic). -/
def findBusOk (accounts : List (Option BusAcc)) : Option Nat :=
  (accounts.foldl busStep (some (0, 0))).map Prod.snd

/-- `Miner::find_bus`: `read` is the result of `get_multiple_accounts`
(`none` = RPC error); `r` models the random draw `gen_range(0..BUS_COUNT)` of
the fallback path. -/
def findBus (read : Option (List (Option BusAcc))) (r : Fin 8) : Option Nat :=
  match read with
  | some accounts => findBusOk accounts
  | none => some (busAddresses.get ⟨r.val, by simp only [busAddresses, List.length_range]; exact r.isLt⟩)

/-- The pair `(rewards, BUS_ADDRESSES-index)` a deserialized bus contributes. -/
def pairOf (b : BusAcc) : Nat × Nat := (b.rewards, b.id)

/-- Precondition of C10, in the claim's words: every deserialized bus whose
`rewards` strictly exceed the running maximum has `id < 8`. -/
def busGuard (top : Nat) : List BusAcc → Prop
  | [] => True
  | b :: bs => (top < b.rewards → b.id < 8) ∧ busGuard (max top b.rewards) bs

theorem busFold_skip (xs : List (Option BusAcc)) (st : Option (Nat × Nat)) :
    xs.foldl busStep st = (xs.filterMap id).foldl busStepSome st := by
  induction xs generalizing st with
  | nil => rfl
  | cons x xs ih => cases x <;> simp [busStep, List.filterMap_cons, ih]

theorem busFold_eq (bs : List BusAcc) (top addr : Nat) (hg : busGuard top bs) :
    bs.foldl busStepSome (some (top, addr))
      = some (keepMax Prod.fst (top, addr) (bs.map pairOf)) := by
  induction bs generalizing top addr with
  | nil => rfl
  | cons b bs ih =>
    obtain ⟨h1, h2⟩ := hg
    by_cases h : top < b.rewards
    · have hid : b.id < 8 := h1 h
      have hget : busAddresses[b.id]? = some b.id := by
        simp only [busAddresses]; exact List.getElem?_range hid
      have hmax : max top b.rewards = b.rewards := Nat.max_eq_right (le_of_lt h)
      rw [List.foldl_cons]
      have hstep : busStepSome (some (top, addr)) b = some (b.rewards, b.id) := by
        simp [busStepSome, if_pos h, hget]
      rw [hstep, ih b.rewards b.id (hmax ▸ h2)]
      simp [keepMax, pairOf, List.foldl_cons, if_pos h]
    · have hmax : max top b.rewards = top := Nat.max_eq_left (le_of_not_lt h)
      rw [List.foldl_cons]
      have hstep : busStepSome (some (top, addr)) b = some (top, addr) := by
        simp [busStepSome, if_neg h]
      rw [hstep, ih top addr (hmax ▸ h2)]
      simp [keepMax, pairOf, List.foldl_cons, if_neg h]

theorem busFold_inbounds (bs : List BusAcc) (top addr : Nat) (hg : busGuard top bs)
    (ha : addr < 8) :
    ∃ t a, bs.foldl busStepSome (some (top, addr)) = some (t, a) ∧ a < 8 := by
  induction bs generalizing top addr with
  | nil => exact ⟨top, addr, rfl, ha⟩
  | cons b bs ih =>
    obtain ⟨h1, h2⟩ := hg
    by_cases h : top < b.rewards
    · have hid : b.id < 8 := h1 h
      have hget : busAddresses[b.id]? = some b.id := by
        simp only [busAddresses]; exact List.getElem?_range hid
      have hmax : max top b.rewards = b.rewards := Nat.max_eq_right (le_of_lt h)
      rw [List.foldl_cons]
      have hstep : busStepSome (some (top, addr)) b = some (b.rewards, b.id) := by
        simp [busStepSome, if_pos h, hget]
      rw [hstep]
      exact ih b.rewards b.id (hmax ▸ h2) hid
    · have hmax : max top b.rewards = top := Nat.max_eq_left (le_of_not_lt h)
      rw [List.foldl_cons]
      have hstep : busStepSome (some (top, addr)) b = some (top, addr) := by
        simp [busStepSome, if_neg h]
      rw [hstep]
      exact ih top addr (hmax ▸ h2) ha

/-! ## Worker hot loop (`mine.rs`, `find_hash_par`, lines 131-188)

One spawned worker increments its nonce forever; every time the current nonce
is a multiple of 100 it reads the shared tracker and breaks iff
`elapsed ≥ cutoff_time` and the observed global best is `≥ min_difficulty`.
`SearchEnv` gives, per loop iteration (indexed by the current nonce), the
observed elapsed time and the observed global best difficulty. -/

structure SearchEnv where
  elapsed : Nat → Nat
  global : Nat → Nat

/-- The worker's break decision at one iteration (`mine.rs`, lines 153-166). -/
def stopNow (cutoff minDifficulty nonce elapsed global : Nat) : Bool :=
  nonce % 100 == 0 && decide (cutoff ≤ elapsed) && decide (minDifficulty ≤ global)

/-- Fuel-indexed unrolling of the worker's hot loop; returns the nonce at which
the loop breaks (`none` if it has not broken within `fuel` iterations). -/
def workerLoop (cutoff minDifficulty : Nat) (env : SearchEnv) : Nat → Nat → Option Nat
  | 0, _ => none
  | fuel + 1, nonce =>
      if stopNow cutoff minDifficulty nonce (env.elapsed nonce) (env.global nonce)
      then some nonce
      else workerLoop cutoff minDifficulty env fuel (nonce + 1)

theorem workerLoop_exit (cutoff minDifficulty : Nat) (env : SearchEnv) :
    ∀ fuel nonce n, workerLoop cutoff minDifficulty env fuel nonce = some n →
      stopNow cutoff minDifficulty n (env.elapsed n) (env.global n) = true := by
  intro fuel
  induction fuel with
  | zero => intro nonce n h; exact absurd h (by simp [workerLoop])
  | succ fuel ih =>
      intro nonce n h
      rw [workerLoop] at h
      by_cases hs : stopNow cutoff minDifficulty nonce (env.elapsed nonce) (env.global nonce)
      · rw [if_pos hs] at h
        cases h
        exact hs
      · rw [if_neg hs] at h
        exact ih (nonce + 1) n h

/-! ## Shared best-difficulty tracker (`mine.rs`, `find_hash_par`, lines 142-149)

`if best_difficulty.gt(&*global.read()) { *global.write() = best_difficulty }`:
the read guard is dropped before the write lock is taken, so one update is two
separate atomic steps.  A thread is `(value, observed)`: its candidate value
and the shared value it saw at its read step (`none` before the read). -/

inductive TrOp : Type
  | read (t : Nat)
  | write (t : Nat)

/-- One interleaving step: `read t` records the current shared value in thread
`t`; `write t` stores `t`'s value iff it exceeds what `t` observed. -/
def trStep (st : Nat × List (Nat × Option Nat)) (op : TrOp) : Nat × List (Nat × Option Nat) :=
  match op with
  | .read t =>
      match st.2[t]? with
      | some (v, _) => (st.1, st.2.set t (v, some st.1))
      | none => st
  | .write t =>
      match st.2[t]? with
      | some (v, some o) => (if o < v then v else st.1, st.2)
      | _ => st

/-- Final shared value after executing a schedule `ops` over `threads`,
starting from a fresh tracker (`0`, as in `RwLock::new(0u32)`). -/
def runOps (threads : List (Nat × Option Nat)) (ops : List TrOp) : Nat :=
  (ops.foldl trStep (0, threads)).1

/-- The same update run atomically (read, compare and write under one lock):
the discipline the spec describes. -/
def seqUpdate (g v : Nat) : Nat := if g < v then v else g

/-- Sequential (non-interleaved) execution of all published values. -/
def runSeq (vs : List Nat) : Nat := vs.foldl seqUpdate 0

theorem runSeq_eq_foldl_max (vs : List Nat) : runSeq vs = vs.foldl max 0 := by
  have h : ∀ g, vs.foldl seqUpdate g = vs.foldl max g := by
    induction vs with
    | nil => intro g; rfl
    | cons v vs ih =>
        intro g
        simp only [List.foldl_cons, ih]
        congr 1
        rw [seqUpdate, max_def]
        split_ifs <;> omega
  exact h 0

/-! ## Aggregation across workers (`mine.rs`, `find_hash_par`, lines 193-216)

`h.join()` failures are skipped; a joined `(nonce, difficulty, hash)` replaces
the running best only on strictly larger difficulty.  The initial best is
`(0, 0, Hash::default())`. -/

/-- Interface model of `drillx::Hash::default().d`: the all-zero 16-byte digest. -/
def defaultDigest : List Nat := List.replicate 16 0

/-- One worker's returned triple `(best_nonce, best_difficulty, best_hash.d)`. -/
structure WorkerOut where
  nonce : Nat
  difficulty : Nat
  digest : List Nat
deriving DecidableEq

def defaultWorkerOut : WorkerOut := ⟨0, 0, defaultDigest⟩

/-- The join loop of `find_hash_par`: `none` models a worker whose spawn or
join failed (`h.join()` returned `Err`). -/
def joinResults (rs : List (Option WorkerOut)) : WorkerOut :=
  rs.foldl
    (fun best r =>
      match r with
      | none => best
      | some c => if best.difficulty < c.difficulty then c else best)
    defaultWorkerOut

theorem joinResults_skip (rs : List (Option WorkerOut)) :
    joinResults rs = keepMax WorkerOut.difficulty defaultWorkerOut (rs.filterMap id) := by
  show List.foldl _ defaultWorkerOut rs = _
  rw [keepMax]
  generalize defaultWorkerOut = best
  induction rs generalizing best with
  | nil => rfl
  | cons r rs ih => cases r <;> simp [List.filterMap_cons, ih]

/-- `Solution::new(best_hash.d, best_nonce.to_le_bytes())`
(`find_hash_par`, line 216). -/
structure SolutionM where
  d : List Nat
  n : List Nat

def solutionOf (w : WorkerOut) : SolutionM := ⟨w.digest, toLeBytes 8 w.nonce⟩

/-! ## Instruction assembly

`Ix` models a Solana instruction at the granularity the claims need; public
keys are abstracted to distinct `Nat` tags. -/

inductive Ix : Type
  | computeBudget (cus : Nat)
  | transfer (source dest lamports : Nat)
  | authIx (proof : Nat)
  | mineIxE (signer pool proof bus : Nat) (data : List Nat)
deriving DecidableEq

/-- The 8 fixed Jito tip accounts (`send_and_confirm.rs`, lines 76-85),
abstracted to the distinct tags `100..107` in source order. -/
def tipAccounts : List Nat := [100, 101, 102, 103, 104, 105, 106, 107]

/-- `Miner::send_and_confirm`, lines 57-96: push the compute-budget
instruction, extend with the caller's instructions, then (iff the shared tip
value is positive) push a transfer of `jitoTip` lamports from the signer to
the tip account drawn by the random choice `rTip`. -/
def assembleFinalIxs (ixs : List Ix) (signerPk jitoTip : Nat) (rTip : Fin 8) (cus : Nat) :
    List Ix :=
  [Ix.computeBudget cus] ++ ixs ++
    (if 0 < jitoTip then
      [Ix.transfer signerPk (tipAccounts.get ⟨rTip.val, by
        simp only [tipAccounts, List.length_cons, List.length_nil]; exact
          lt_of_lt_of_le rTip.isLt (by omega)⟩) jitoTip]
    else [])

def isTransferIx : Ix → Bool
  | .transfer _ _ _ => true
  | _ => false

/-- Interface model of `utils::proof_pubkey` (a program-derived address);
no claim depends on its value. -/
def proofPubkey (authority : Nat) : Nat := authority

/-- The `mine` free function (`mine.rs`, lines 288-315): the produced
instruction with its data bytes `Mine::to_bytes`. -/
def mineInstruction (signer pool proof bus : Nat) (sol : SolutionM) : Ix :=
  .mineIxE signer pool proof bus (mineToBytes sol.d sol.n)

/-- `Miner::mine`, lines 82-94: the caller's instruction list for one round,
built unconditionally from whatever solution the search returned. -/
def buildMineIxs (signer miner pool proof bus : Nat) (sol : SolutionM) : List Ix :=
  [Ix.authIx (proofPubkey miner), mineInstruction signer pool proof bus sol]

/-! ## Submission state machine (`send_and_confirm.rs`, `Miner::send_and_confirm`)

Constants from the source: `GATEWAY_RETRIES = 1`, `CONFIRM_RETRIES = 8`.
The loop re-signs whenever `attempts % 10 == 0` (no observable effect in this
model), increments `attempts`, sends, and on a successful send polls the
signature status up to 8 times.  The script of remote events is explicit:
one `AttemptEv` per send call. -/

/-- Models `OreError::NeedsReset as u32` from the external `ore_api` crate;
the machine only compares error codes against it. -/
def needsResetCode : Nat := 0

inductive ConfStat : Type
  | processed
  | confirmedS
  | finalized

inductive InstrErr : Type
  | custom (code : Nat)
  | otherInstr

inductive TxErr : Type
  | instruction (e : InstrErr)
  | otherTx

/-- One entry of `get_signature_statuses(...).value`. -/
structure SigStatus where
  err : Option TxErr
  confirmation : Option ConfStat

/-- One poll: the RPC call failed, or returned a list of optional statuses. -/
inductive PollResult : Type
  | errPoll
  | okPoll (statuses : List (Option SigStatus))

/-- One send attempt as scripted: did `send_transaction_with_config` return
`Ok`, and what the confirmation polls that follow it return. -/
structure AttemptEv where
  send : Bool
  polls : List PollResult

/-- What the inner status scan decides (`send_and_confirm.rs`, lines 139-235). -/
inductive StatusAction : Type
  | actReset
  | actFatal
  | actSuccess
  | actContinue

/-- Classification of one present status, mirroring the nested matches:
an error is examined first; a custom instruction error equal to the
needs-reset code resets, any other error is fatal; with no error, a
`Confirmed`/`Finalized` confirmation succeeds and `Processed` keeps polling. -/
def classifyStatus (s : SigStatus) : StatusAction :=
  match s.err with
  | some e =>
      match e with
      | .instruction ie =>
          match ie with
          | .custom code => if code = needsResetCode then .actReset else .actFatal
          | .otherInstr => .actFatal
      | .otherTx => .actFatal
  | none =>
      match s.confirmation with
      | some c =>
          match c with
          | .processed => .actContinue
          | .confirmedS => .actSuccess
          | .finalized => .actSuccess
      | none => .actContinue

/-- The `for status in signature_statuses.value` loop. -/
def scanStatuses : List (Option SigStatus) → StatusAction
  | [] => .actContinue
  | none :: rest => scanStatuses rest
  | some s :: rest =>
      match classifyStatus s with
      | .actContinue => scanStatuses rest
      | .actReset => .actReset
      | .actFatal => .actFatal
      | .actSuccess => .actSuccess

inductive ConfOutcome : Type
  | success
  | fatal
  | reset
  | fellThrough

/-- The `'confirm` loop over at most `CONFIRM_RETRIES` polls; a failed poll is
logged and polling continues. -/
def runConfirm : List PollResult → ConfOutcome
  | [] => .fellThrough
  | p :: rest =>
      match p with
      | .errPoll => runConfirm rest
      | .okPoll statuses =>
          match scanStatuses statuses with
          | .actReset => .reset
          | .actFatal => .fatal
          | .actSuccess => .success
          | .actContinue => runConfirm rest

/-- Terminal result of `send_and_confirm`. -/
inductive SubOutcome : Type
  | okSig
  | fatalErr
  | fatalMax
deriving DecidableEq

/-- The submission loop.  State: `attempts` (the counter the source resets on
needs-reset) and `sent` (how many send calls have happened, for observability).
Returns `none` when the script is exhausted with the machine still looping.
After each non-terminal attempt the source checks `attempts > GATEWAY_RETRIES`
(with `GATEWAY_RETRIES = 1`) and fails with "Max retries" past the bound. -/
def sendLoop (skipConfirm : Bool) : Nat → Nat → List AttemptEv → Option (SubOutcome × Nat)
  | _, _, [] => none
  | attempts, sent, a :: rest =>
      let attempts := attempts + 1
      let sent := sent + 1
      if a.send then
        if skipConfirm then some (.okSig, sent)
        else
          match runConfirm (a.polls.take 8) with
          | .success => some (.okSig, sent)
          | .fatal => some (.fatalErr, sent)
          | .reset =>
              if 1 < 0 then some (.fatalMax, sent)
              else sendLoop skipConfirm 0 sent rest
          | .fellThrough =>
              if 1 < attempts then some (.fatalMax, sent)
              else sendLoop skipConfirm attempts sent rest
      else
        if 1 < attempts then some (.fatalMax, sent)
        else sendLoop skipConfirm attempts sent rest

/-- A status carrying the on-chain needs-reset custom instruction error. -/
def needsResetStatus (conf : Option ConfStat) : SigStatus :=
  ⟨some (.instruction (.custom needsResetCode)), conf⟩

/-! ## Claims -/

/-- Claim C6 (confirmed): for every `worker_count ≥ 1` (a `u64`, so at most
`2^64 - 1`), the starting offsets `floor(u64::MAX / worker_count) * i` are
strictly increasing (hence pairwise distinct) in `i`, and the multiplication
stays within `u64`, so `saturating_mul` never actually saturates. -/
theorem claim_C6_nonce_partition (cores : Nat) (h1 : 1 ≤ cores) (h2 : cores ≤ u64MAX) :
    (∀ i j, i < j → j < cores → nonceIndex cores i < nonceIndex cores j)
    ∧ (∀ i, i < cores → nonceIndex cores i ≤ u64MAX) := by
  have hc : 0 < cores := h1
  have hstep : 1 ≤ u64MAX / cores := (Nat.one_le_div_iff hc).mpr h2
  constructor
  · intro i j hij _
    exact mul_lt_mul_of_pos_left hij (lt_of_lt_of_le Nat.zero_lt_one hstep)
  · intro i hi
    calc (u64MAX / cores) * i ≤ (u64MAX / cores) * cores :=
          Nat.mul_le_mul_left _ (le_of_lt hi)
      _ ≤ u64MAX := Nat.div_mul_le_self u64MAX cores

/-- Witness for C6 at `cores = 4`. -/
theorem claim_C6_nonce_partition_witness :
    nonceIndex 4 1 < nonceIndex 4 2 ∧ nonceIndex 4 3 ≤ u64MAX :=
  ⟨(claim_C6_nonce_partition 4 (by decide) (by decide)).1 1 2 (by decide) (by decide),
   (claim_C6_nonce_partition 4 (by decide) (by decide)).2 3 (by decide)⟩

theorem satI64_of_range (x : Int) (h1 : i64MIN ≤ x) (h2 : x ≤ i64MAX) : satI64 x = x := by
  rw [satI64, min_eq_right h2, max_eq_right h1]

set_option maxRecDepth 8000 in
/-- Claim C9 counterexample: at `buffer_time = 2^63` the code's `as i64` cast
wraps to `-2^63`, so `get_cutoff` yields `2^63 - 1` where the claimed formula
`max(0, last_hash_at + 60 − buffer_time − now)` under saturating signed
64-bit arithmetic yields `0`. -/
theorem claim_C9_counterexample :
    getCutoff 0 (2 ^ 63) 0 = 2 ^ 63 - 1 ∧ specCutoffSat 0 (2 ^ 63) 0 = 0
    ∧ ((getCutoff 0 (2 ^ 63) 0 : Int) ≠ specCutoffSat 0 (2 ^ 63) 0) := by decide

/-- Claim C9 (corrected): for `last_hash_at` and `now` in `i64` range and every
`buffer_time < 2^63` (so the `u64 → i64` cast is value-preserving), the
computed deadline equals `max(0, last_hash_at + 60 − buffer_time − now)` under
saturating signed 64-bit arithmetic, is never negative, and — when no
intermediate saturates — equals the exact integer formula. -/
theorem claim_C9_cutoff (l : Int) (b : Nat) (now : Int)
    (hb : b < 2 ^ 63) :
    ((getCutoff l b now : Int) = specCutoffSat l b now)
    ∧ 0 ≤ specCutoffSat l b now
    ∧ (l + 60 ≤ i64MAX → i64MIN ≤ l + 60 - b → i64MIN ≤ l + 60 - b - now →
        l + 60 - b - now ≤ i64MAX → i64MIN ≤ l →
        (getCutoff l b now : Int) = max 0 (l + 60 - b - now)) := by
  have hwrap : wrapCastU64 b = (b : Int) := if_pos hb
  refine ⟨?_, le_max_left _ _, ?_⟩
  · rw [getCutoff, specCutoffSat, hwrap, Int.toNat_of_nonneg (le_max_left _ _)]
  · intro h60 hlb1 hlbn1 hlbn2 hl1
    have hb0 : (0 : Int) ≤ (b : Int) := Int.ofNat_nonneg b
    have e1 : satAdd l 60 = l + 60 := by
      refine satI64_of_range _ ?_ h60
      have : i64MIN ≤ l := hl1
      omega
    have e2 : satSub (l + 60) (b : Int) = l + 60 - b := by
      refine satI64_of_range _ hlb1 ?_
      omega
    have e3 : satSub (l + 60 - b) now = l + 60 - b - now :=
      satI64_of_range _ hlbn1 hlbn2
    rw [getCutoff, hwrap, e1, e2, e3, Int.toNat_of_nonneg (le_max_left _ _)]

/-- Witness for C9 at `l = 100`, `b = 5`, `now = 50`. -/
theorem claim_C9_cutoff_witness :
    ((getCutoff 100 5 50 : Int) = specCutoffSat 100 5 50)
    ∧ (getCutoff 100 5 50 : Int) = max 0 (100 + 60 - 5 - 50) :=
  ⟨(claim_C9_cutoff 100 5 50 (by decide)).1,
   (claim_C9_cutoff 100 5 50 (by decide)).2.2 (by decide) (by decide) (by decide)
     (by decide) (by decide)⟩

/-- Claim C7 (confirmed): the instruction data produced for a 16-byte digest
and a `u64` nonce is the 8-byte discriminator, then the digest, then the
8-byte little-endian nonce; decoding at the fixed offsets 8 and 24 recovers
the digest bytes and the nonce exactly. -/
theorem claim_C7_wire_roundtrip (digest : List Nat) (n : Nat)
    (hd : digest.length = 16) (hn : n < 2 ^ 64) :
    (mineToBytes digest (toLeBytes 8 n)).length = 32
    ∧ ((mineToBytes digest (toLeBytes 8 n)).drop 8).take 16 = digest
    ∧ (mineToBytes digest (toLeBytes 8 n)).drop 24 = toLeBytes 8 n
    ∧ fromLeBytes ((mineToBytes digest (toLeBytes 8 n)).drop 24) = n := by
  have hnl : (toLeBytes 8 n).length = 8 := toLeBytes_length 8 n
  have hdrop8 : (mineToBytes digest (toLeBytes 8 n)).drop 8 = digest ++ toLeBytes 8 n := by
    rw [mineToBytes, List.append_assoc]
    exact List.drop_left' (by rfl)
  have hdrop24 : (mineToBytes digest (toLeBytes 8 n)).drop 24 = toLeBytes 8 n := by
    rw [mineToBytes]
    exact List.drop_left' (by simp [discriminatorBytes, hd])
  refine ⟨?_, ?_, hdrop24, ?_⟩
  · simp [mineToBytes, hd, hnl, discriminatorBytes]
  · rw [hdrop8]
    exact List.take_left' hd
  · rw [hdrop24, fromLeBytes_toLeBytes]
    have h2 : (256 : Nat) ^ 8 = 2 ^ 64 := by norm_num
    rw [h2]
    exact Nat.mod_eq_of_lt hn

/-- Witness for C7 at a concrete digest and nonce. -/
theorem claim_C7_wire_roundtrip_witness :
    ((mineToBytes (List.replicate 16 3) (toLeBytes 8 5)).drop 8).take 16
        = List.replicate 16 3
    ∧ fromLeBytes ((mineToBytes (List.replicate 16 3) (toLeBytes 8 5)).drop 24) = 5 :=
  ⟨(claim_C7_wire_roundtrip (List.replicate 16 3) 5 (by decide) (by norm_num)).2.1,
   (claim_C7_wire_roundtrip (List.replicate 16 3) 5 (by decide) (by norm_num)).2.2.2⟩

/-- Claim C5 (confirmed): the worker's hot loop never stops while
`elapsed < cutoff`; once `elapsed ≥ cutoff` the break condition holds exactly
when the observed global best is at least `min_difficulty`; the condition is
only ever true at nonces that are multiples of 100; and whenever the loop
returns, all three parts of the stop condition held at the returned nonce. -/
theorem claim_C5_stop_condition (cutoff minDifficulty : Nat) (env : SearchEnv) :
    (∀ nonce e g, e < cutoff → stopNow cutoff minDifficulty nonce e g = false)
    ∧ (∀ nonce e g, nonce % 100 = 0 → cutoff ≤ e →
        (stopNow cutoff minDifficulty nonce e g = true ↔ minDifficulty ≤ g))
    ∧ (∀ nonce e g, nonce % 100 ≠ 0 → stopNow cutoff minDifficulty nonce e g = false)
    ∧ (∀ fuel nonce n, workerLoop cutoff minDifficulty env fuel nonce = some n →
        n % 100 = 0 ∧ cutoff ≤ env.elapsed n ∧ minDifficulty ≤ env.global n) := by
  refine ⟨?_, ?_, ?_, ?_⟩
  · intro nonce e g h
    simp [stopNow, Nat.not_le.mpr h]
  · intro nonce e g h100 hce
    simp [stopNow, h100, hce]
  · intro nonce e g h100
    simp [stopNow, h100]
  · intro fuel nonce n h
    have hs := workerLoop_exit cutoff minDifficulty env fuel nonce n h
    simp [stopNow] at hs
    exact ⟨hs.1.1, hs.1.2, hs.2⟩

/-- Witness for C5: concrete stop-condition evaluations and one concrete loop
exit (constant environment: elapsed 10 s, global best 5). -/
theorem claim_C5_stop_condition_witness :
    stopNow 10 3 500 2 7 = false
    ∧ (stopNow 10 3 500 12 7 = true ↔ 3 ≤ 7)
    ∧ stopNow 10 3 501 12 7 = false
    ∧ (0 % 100 = 0 ∧ 10 ≤ (SearchEnv.mk (fun _ => 10) (fun _ => 5)).elapsed 0
        ∧ 3 ≤ (SearchEnv.mk (fun _ => 10) (fun _ => 5)).global 0) :=
  ⟨(claim_C5_stop_condition 10 3 ⟨fun _ => 10, fun _ => 5⟩).1 500 2 7 (by decide),
   (claim_C5_stop_condition 10 3 ⟨fun _ => 10, fun _ => 5⟩).2.1 500 12 7 (by decide) (by decide),
   (claim_C5_stop_condition 10 3 ⟨fun _ => 10, fun _ => 5⟩).2.2.1 501 12 7 (by decide),
   (claim_C5_stop_condition 10 3 ⟨fun _ => 10, fun _ => 5⟩).2.2.2 1 0 0 (by decide)⟩

/-- Claim C3 counterexample: with two publishers holding values 5 and 10, the
schedule read(0), read(1), write(1), write(0) — possible because the source
drops the read lock before taking the write lock — first publishes 10 and then
lets the stale-checked 5 overwrite it, so the final value is 5, not the
maximum ever published (10). -/
theorem claim_C3_counterexample :
    runOps [(5, none), (10, none)] [TrOp.read 0, TrOp.read 1, TrOp.write 1] = 10
    ∧ runOps [(5, none), (10, none)]
        [TrOp.read 0, TrOp.read 1, TrOp.write 1, TrOp.write 0] = 5 := by decide

/-- Claim C3 (corrected): the update performs a compare against the value
observed at its read step, so under sequential (non-interleaved) execution —
each read-compare-write uninterrupted — the tracker is monotone: each update
never lowers the value, the final value bounds every published value, and it is
the maximum ever published (zero or one of the published values).  The
interleaved counterexample shows this fails for concurrent read/write pairs. -/
theorem claim_C3_tracker_monotonic (vs : List Nat) :
    runSeq vs = vs.foldl max 0
    ∧ (∀ v ∈ vs, v ≤ runSeq vs)
    ∧ (runSeq vs = 0 ∨ runSeq vs ∈ vs)
    ∧ (∀ g v, g ≤ seqUpdate g v ∧ (g < v → seqUpdate g v = v)
        ∧ (v ≤ g → seqUpdate g v = g)) := by
  have hk : runSeq vs = keepMax id 0 vs := by
    rw [runSeq, keepMax]
    congr 1
  refine ⟨runSeq_eq_foldl_max vs, ?_, ?_, ?_⟩
  · intro v hv
    rw [hk]
    exact (keepMax_le id 0 vs).2 v hv
  · rw [hk]
    exact keepMax_mem id 0 vs
  · intro g v
    simp only [seqUpdate]
    refine ⟨?_, ?_, ?_⟩
    · split_ifs with h
      · exact le_of_lt h
      · exact le_refl g
    · intro h
      exact if_pos h
    · intro h
      exact if_neg (not_lt.mpr h)

/-- Witness for C3 at the published sequence `[3, 7, 2]`. -/
theorem claim_C3_tracker_monotonic_witness :
    7 ≤ runSeq [3, 7, 2] ∧ (runSeq [3, 7, 2] = 0 ∨ runSeq [3, 7, 2] ∈ [3, 7, 2]) :=
  ⟨(claim_C3_tracker_monotonic [3, 7, 2]).2.1 7 (by decide),
   (claim_C3_tracker_monotonic [3, 7, 2]).2.2.1⟩

/-- Claim C10 (confirmed): under the precondition that every deserialized bus
whose rewards strictly exceed the running maximum has `id < 8`, the success
path of `find_bus` indexes in bounds and returns one of the 8 fixed bus
addresses; a bus account with `id = 8` and positive rewards makes the success
path panic (modelled as `none`). -/
theorem claim_C10_bus_indexing :
    (∀ accounts, busGuard 0 (accounts.filterMap id) →
      ∃ a, findBusOk accounts = some a ∧ a ∈ busAddresses)
    ∧ findBusOk [some ⟨8, 1⟩] = none := by
  constructor
  · intro accounts hg
    rw [findBusOk, busFold_skip]
    obtain ⟨t, a, hfold, ha⟩ :=
      busFold_inbounds (accounts.filterMap id) 0 0 hg (by decide)
    refine ⟨a, ?_, ?_⟩
    · rw [hfold]
      rfl
    · rw [busAddresses]
      exact List.mem_range.mpr ha
  · decide

/-- Witness for C10 on one well-formed bus account. -/
theorem claim_C10_bus_indexing_witness :
    ∃ a, findBusOk [some ⟨0, 3⟩] = some a ∧ a ∈ busAddresses :=
  claim_C10_bus_indexing.1 [some ⟨0, 3⟩]
    ⟨fun _ => by decide, trivial⟩

/-- Claim C4 counterexample: when the batched read succeeds but yields no
usable account (all 8 entries absent/undeserializable), `find_bus` returns
`BUS_ADDRESSES[0]` deterministically — not the uniformly random choice the
claim asserts: with random draw 3 the fallback path returns address tag 3,
while the successful-but-empty read returns tag 0. -/
theorem claim_C4_counterexample :
    findBus (some (List.replicate 8 none)) ⟨3, by decide⟩ = some 0
    ∧ findBus none ⟨3, by decide⟩ = some 3
    ∧ (0 : Nat) ≠ 3 := by decide

/-- Claim C4 (corrected): on a read failure `find_bus` returns the bus address
drawn by the uniform random index (always one of the 8 fixed addresses); on a
successful read in which no deserialized account has positive rewards it
returns `BUS_ADDRESSES[0]` (not a random one); on a successful read with some
positive-reward account (and in-bounds indexing per the C10 precondition) it
returns the address indexed by the id of the first account attaining the
strictly largest rewards — strictly larger than every earlier account's,
at least as large as every later account's. -/
theorem claim_C4_find_bus :
    (∀ r : Fin 8, findBus none r = some r.val ∧ r.val ∈ busAddresses)
    ∧ (∀ accounts r, (∀ b ∈ accounts.filterMap id, BusAcc.rewards b = 0) →
        findBus (some accounts) r = some 0)
    ∧ (∀ accounts r, busGuard 0 (accounts.filterMap id) →
        (∃ b ∈ accounts.filterMap id, 0 < b.rewards) →
        ∃ rew addr l₁ l₂,
          findBus (some accounts) r = some addr
          ∧ (accounts.filterMap id).map pairOf = l₁ ++ (rew, addr) :: l₂
          ∧ 0 < rew
          ∧ (∀ y ∈ l₁, y.1 < rew)
          ∧ (∀ y ∈ l₂, y.1 ≤ rew)
          ∧ (∃ b ∈ accounts.filterMap id, pairOf b = (rew, addr))) := by
  refine ⟨?_, ?_, ?_⟩
  · intro r
    constructor
    · show some _ = _
      congr 1
      simp [busAddresses]
    · rw [busAddresses]
      exact List.mem_range.mpr r.isLt
  · intro accounts r hzero
    show findBusOk accounts = some 0
    rw [findBusOk, busFold_skip]
    have hfold : ∀ bs : List BusAcc, (∀ b ∈ bs, BusAcc.rewards b = 0) →
        bs.foldl busStepSome (some ((0 : Nat), (0 : Nat))) = some (0, 0) := by
      intro bs
      induction bs with
      | nil => intro _; rfl
      | cons b bs ih =>
          intro hz
          have hb : b.rewards = 0 := hz b (List.mem_cons_self b bs)
          rw [List.foldl_cons]
          have hstep : busStepSome (some (0, 0)) b = some (0, 0) := by
            rw [busStepSome]
            rw [if_neg (by rw [hb]; exact lt_irrefl 0)]
          rw [hstep]
          exact ih (fun c hc => hz c (List.mem_cons_of_mem b hc))
    rw [hfold (accounts.filterMap id) hzero]
    rfl
  · intro accounts r hg hpos
    obtain ⟨b0, hb0m, hb0p⟩ := hpos
    set parsed := accounts.filterMap id with hparsed
    have hfold : findBus (some accounts) r
        = some (keepMax Prod.fst (0, 0) (parsed.map pairOf)).2 := by
      show findBusOk accounts = _
      rw [findBusOk, busFold_skip, ← hparsed, busFold_eq parsed 0 0 hg]
      rfl
    set K := keepMax Prod.fst ((0 : Nat), (0 : Nat)) (parsed.map pairOf) with hK
    rcases keepMax_cases Prod.fst ((0 : Nat), (0 : Nat)) (parsed.map pairOf) with
      ⟨_, hle⟩ | ⟨l₁, l₂, hdec, hlt, h₁, h₂⟩
    · exfalso
      have hmem : pairOf b0 ∈ parsed.map pairOf := List.mem_map_of_mem pairOf hb0m
      have := hle (pairOf b0) hmem
      rw [pairOf] at this
      exact absurd (lt_of_lt_of_le hb0p this) (lt_irrefl 0)
    · refine ⟨K.1, K.2, l₁, l₂, ?_, ?_, hlt, ?_, ?_, ?_⟩
      · rw [hfold]
      · rw [← hK] at hdec
        simpa using hdec
      · intro y hy
        exact h₁ y hy
      · intro y hy
        exact h₂ y hy
      · have hKmem : K ∈ parsed.map pairOf := by
          rw [hdec, ← hK]
          simp
        obtain ⟨b, hbm, hbe⟩ := List.mem_map.mp hKmem
        exact ⟨b, hbm, by rw [hbe]⟩

/-- Witness for C4: a failed read with draw 2; an all-unusable successful
read; a successful read whose second account has the strictly largest
rewards. -/
theorem claim_C4_find_bus_witness :
    (findBus none ⟨2, by decide⟩ = some 2)
    ∧ findBus (some [none, none]) ⟨2, by decide⟩ = some 0
    ∧ (∃ rew addr l₁ l₂,
        findBus (some [some ⟨2, 5⟩, some ⟨1, 9⟩, none]) ⟨2, by decide⟩ = some addr
        ∧ ([some (⟨2, 5⟩ : BusAcc), some ⟨1, 9⟩, none].filterMap id).map pairOf
            = l₁ ++ (rew, addr) :: l₂
        ∧ 0 < rew
        ∧ (∀ y ∈ l₁, y.1 < rew)
        ∧ (∀ y ∈ l₂, y.1 ≤ rew)
        ∧ (∃ b ∈ [some (⟨2, 5⟩ : BusAcc), some ⟨1, 9⟩, none].filterMap id,
            pairOf b = (rew, addr))) :=
  ⟨(claim_C4_find_bus.1 ⟨2, by decide⟩).1,
   claim_C4_find_bus.2.1 [none, none] ⟨2, by decide⟩ (by decide),
   claim_C4_find_bus.2.2 [some ⟨2, 5⟩, some ⟨1, 9⟩, none] ⟨2, by decide⟩
     ⟨fun _ => by decide, fun _ => by decide, trivial⟩
     ⟨⟨1, 9⟩, by decide, by decide⟩⟩

/-- Claim C8 counterexample: when every worker's join fails, the search
returns the zero-difficulty default `(0, 0, Hash::default())` and the caller
(`Miner::mine`, lines 80-98) assembles and submits it exactly like any other
solution — there is no flagging branch, so it is silently accepted rather
than treated as a retryable anomaly. -/
theorem claim_C8_counterexample :
    joinResults (List.replicate 3 none) = defaultWorkerOut
    ∧ defaultWorkerOut.difficulty = 0
    ∧ buildMineIxs 1 2 3 4 5 (solutionOf defaultWorkerOut)
      = [Ix.authIx (proofPubkey 2),
         Ix.mineIxE 1 3 4 5 (mineToBytes defaultDigest (toLeBytes 8 0))] :=
  ⟨rfl, rfl, rfl⟩

/-- Claim C8 (corrected): aggregation skips failed workers (they are not an
error for the round), the selected candidate has maximal difficulty with
equal-difficulty candidates resolved to the first in result-collection order,
and an empty result set yields the zero-difficulty default — which the caller
then submits unchanged (no flagging), as the counterexample shows. -/
theorem claim_C8_aggregation :
    (∀ rs, joinResults rs = keepMax WorkerOut.difficulty defaultWorkerOut (rs.filterMap id))
    ∧ (∀ rs c, some c ∈ rs → WorkerOut.difficulty c ≤ (joinResults rs).difficulty)
    ∧ (∀ rs, joinResults rs = defaultWorkerOut ∨ some (joinResults rs) ∈ rs)
    ∧ (∀ rs : List (Option WorkerOut), (∀ r ∈ rs, r = none) →
        joinResults rs = defaultWorkerOut)
    ∧ (∀ rs, joinResults rs ≠ defaultWorkerOut →
        ∃ l₁ l₂, rs.filterMap id = l₁ ++ joinResults rs :: l₂
          ∧ 0 < (joinResults rs).difficulty
          ∧ (∀ y ∈ l₁, y.difficulty < (joinResults rs).difficulty)
          ∧ (∀ y ∈ l₂, y.difficulty ≤ (joinResults rs).difficulty))
    ∧ (∀ s m p pr b sol, buildMineIxs s m p pr b sol
        = [Ix.authIx (proofPubkey m), Ix.mineIxE s p pr b (mineToBytes sol.d sol.n)]) := by
  have hmem : ∀ (rs : List (Option WorkerOut)) (c : WorkerOut),
      some c ∈ rs → c ∈ rs.filterMap id :=
    fun rs c h => List.mem_filterMap.mpr ⟨some c, h, rfl⟩
  refine ⟨fun rs => joinResults_skip rs, ?_, ?_, ?_, ?_, fun _ _ _ _ _ _ => rfl⟩
  · intro rs c hc
    rw [joinResults_skip]
    exact (keepMax_le WorkerOut.difficulty defaultWorkerOut (rs.filterMap id)).2
      c (hmem rs c hc)
  · intro rs
    rw [joinResults_skip]
    rcases keepMax_mem WorkerOut.difficulty defaultWorkerOut (rs.filterMap id) with h | h
    · exact Or.inl h
    · obtain ⟨a, ham, hae⟩ := List.mem_filterMap.mp h
      cases a with
      | none => exact absurd hae (by simp)
      | some c =>
          refine Or.inr ?_
          have : c = keepMax WorkerOut.difficulty defaultWorkerOut (rs.filterMap id) := by
            simpa using hae
          rw [← this]
          exact ham
  · intro rs hall
    rw [joinResults_skip]
    have : rs.filterMap id = [] := by
      rw [List.filterMap_eq_nil_iff]
      intro a ha
      rw [hall a ha]
      rfl
    rw [this]
    rfl
  · intro rs hne
    rw [joinResults_skip] at hne ⊢
    rcases keepMax_cases WorkerOut.difficulty defaultWorkerOut (rs.filterMap id) with
      ⟨heq, _⟩ | ⟨l₁, l₂, hdec, hlt, h₁, h₂⟩
    · exact absurd heq hne
    · exact ⟨l₁, l₂, hdec, hlt, h₁, h₂⟩

/-- Witness for C8: a concrete round with one failed worker and two results
whose better candidate (difficulty 5) wins; and the all-failed round. -/
theorem claim_C8_aggregation_witness :
    (5 ≤ (joinResults [none, some ⟨9, 5, []⟩, some ⟨4, 5, [1]⟩]).difficulty)
    ∧ joinResults [none, none] = defaultWorkerOut
    ∧ (∃ l₁ l₂,
        [none, some (⟨9, 5, []⟩ : WorkerOut), some ⟨4, 5, [1]⟩].filterMap id
          = l₁ ++ joinResults [none, some ⟨9, 5, []⟩, some ⟨4, 5, [1]⟩] :: l₂
        ∧ 0 < (joinResults [none, some ⟨9, 5, []⟩, some ⟨4, 5, [1]⟩]).difficulty
        ∧ (∀ y ∈ l₁, y.difficulty
            < (joinResults [none, some ⟨9, 5, []⟩, some ⟨4, 5, [1]⟩]).difficulty)
        ∧ (∀ y ∈ l₂, y.difficulty
            ≤ (joinResults [none, some ⟨9, 5, []⟩, some ⟨4, 5, [1]⟩]).difficulty)) :=
  ⟨claim_C8_aggregation.2.1 [none, some ⟨9, 5, []⟩, some ⟨4, 5, [1]⟩] ⟨9, 5, []⟩
     (by decide),
   claim_C8_aggregation.2.2.2.1 [none, none] (by decide),
   claim_C8_aggregation.2.2.2.2.1 [none, some ⟨9, 5, []⟩, some ⟨4, 5, [1]⟩]
     (by decide)⟩

/-- Claim C1 counterexample: with a positive tip the transfer instruction is
appended *after* the domain (auth/mine) instructions — the source extends
`final_ixs` with the caller's instructions (line 68) before pushing the tip
transfer (line 86) — not before them as the claim states. -/
theorem claim_C1_counterexample :
    assembleFinalIxs [Ix.authIx 7, Ix.mineIxE 1 3 4 5 [9]] 1 5 ⟨0, by decide⟩ 500000
      = [Ix.computeBudget 500000, Ix.authIx 7, Ix.mineIxE 1 3 4 5 [9],
         Ix.transfer 1 100 5]
    ∧ assembleFinalIxs [Ix.authIx 7, Ix.mineIxE 1 3 4 5 [9]] 1 5 ⟨0, by decide⟩ 500000
      ≠ [Ix.computeBudget 500000, Ix.transfer 1 100 5, Ix.authIx 7,
         Ix.mineIxE 1 3 4 5 [9]] := by
  exact ⟨rfl, by decide⟩

/-- Claim C1 (corrected): provided the domain instructions contain no
transfer, a zero tip yields an instruction list with no transfer at all, and a
positive tip yields exactly one transfer, destined to a member of the fixed
8-element tip-account set (the one drawn by the random index), placed after
the compute-budget directive and after — not before — the domain
instructions. -/
theorem claim_C1_tip_transfer (ixs : List Ix) (s tip : Nat) (r : Fin 8) (cus : Nat)
    (hno : ∀ ix ∈ ixs, isTransferIx ix = false) :
    (tip = 0 → (assembleFinalIxs ixs s tip r cus).filter isTransferIx = [])
    ∧ (0 < tip →
        ∃ dest, dest ∈ tipAccounts
          ∧ assembleFinalIxs ixs s tip r cus
            = Ix.computeBudget cus :: (ixs ++ [Ix.transfer s dest tip])
          ∧ ((assembleFinalIxs ixs s tip r cus).filter isTransferIx).length = 1) := by
  have hfil : ixs.filter isTransferIx = [] :=
    List.filter_eq_nil_iff.mpr (fun a ha => by simp [hno a ha])
  constructor
  · intro h0
    subst h0
    rw [assembleFinalIxs, if_neg (lt_irrefl 0)]
    simp [List.filter_append, hfil, isTransferIx]
  · intro hpos
    have hrl : r.val < tipAccounts.length := by
      simp only [tipAccounts, List.length_cons, List.length_nil]
      omega
    refine ⟨tipAccounts.get ⟨r.val, hrl⟩, List.get_mem _ _ _, ?_, ?_⟩
    · rw [assembleFinalIxs, if_pos hpos]
      simp
    · rw [assembleFinalIxs, if_pos hpos]
      simp [List.filter_append, hfil, isTransferIx]

/-- Witness for C1 at one domain instruction, tips 0 and 9, draw 2. -/
theorem claim_C1_tip_transfer_witness :
    ((assembleFinalIxs [Ix.authIx 7] 1 0 ⟨2, by decide⟩ 500000).filter isTransferIx = [])
    ∧ (∃ dest, dest ∈ tipAccounts
        ∧ assembleFinalIxs [Ix.authIx 7] 1 9 ⟨2, by decide⟩ 500000
          = Ix.computeBudget 500000 :: ([Ix.authIx 7] ++ [Ix.transfer 1 dest 9])
        ∧ ((assembleFinalIxs [Ix.authIx 7] 1 9 ⟨2, by decide⟩ 500000).filter
            isTransferIx).length = 1) :=
  ⟨(claim_C1_tip_transfer [Ix.authIx 7] 1 0 ⟨2, by decide⟩ 500000 (by decide)).1 rfl,
   (claim_C1_tip_transfer [Ix.authIx 7] 1 9 ⟨2, by decide⟩ 500000 (by decide)).2
     (by decide)⟩

/-- Claim C2 counterexample: with a needs-reset custom error on the first poll
and a confirmation on the second attempt's poll, `send_and_confirm` itself
re-sends the same transaction (two send calls) and returns success — the
recoverable rejection is never surfaced to the outer cycle, which therefore
does not re-fetch, re-search or re-assemble; and after the needs-reset alone
the machine is still inside its own submit loop (no terminal outcome). -/
theorem claim_C2_counterexample :
    sendLoop false 0 0
      [⟨true, [PollResult.okPoll [some (needsResetStatus none)]]⟩,
       ⟨true, [PollResult.okPoll [some ⟨none, some ConfStat.confirmedS⟩]]⟩]
      = some (SubOutcome.okSig, 2)
    ∧ sendLoop false 0 0 [⟨true, [PollResult.okPoll [some (needsResetStatus none)]]⟩]
      = none := by decide

/-- Claim C2 (corrected): on the known needs-reset custom instruction error
the machine resets the attempt counter to zero, breaks confirmation polling,
and does not raise a fatal error — but instead of restarting the outer cycle
it continues its own submit loop, re-signing and re-broadcasting the same
transaction: the state after such an attempt is exactly the loop continuation
with `attempts = 0`, for any prior attempt count and any remaining script. -/
theorem claim_C2_needs_reset (attempts sent : Nat) (conf : Option ConfStat)
    (restSt : List (Option SigStatus)) (morePolls : List PollResult)
    (rest : List AttemptEv) :
    sendLoop false attempts sent
      (⟨true, PollResult.okPoll (some (needsResetStatus conf) :: restSt) :: morePolls⟩
        :: rest)
      = sendLoop false 0 (sent + 1) rest := by
  simp [sendLoop, runConfirm, scanStatuses, classifyStatus, needsResetStatus]
